import Mathlib

/-!
# Verification of the BOM explosion core of `BomVergelijker3.py`

Shallow embedding of the core of the repository: the row classifier
(`classify`, `is_length_item`), the recursive explosion engine
(`traverse`, modelled with explicit fuel as `traverseF`/`goRows`), and
the aggregation into the result table (`resultTable`).

Quantities are modelled as rationals (the source uses Python floats; the
claims under study only involve products and sums whose values are exact),
items and free-text fields as strings, and the mutable accumulators
(`trace_log`, `length_log`, `seen_paths`, `final_results`) as an explicit
state record threaded through the recursion.
-/

namespace BomVergelijker

/-- Case-sensitive check that `p` is a leading segment of `l` (char lists). -/
def startsWithChars : List Char → List Char → Bool
  | [], _ => true
  | _ :: _, [] => false
  | a :: as, b :: bs => a == b && startsWithChars as bs

/-- Case-sensitive substring containment on char lists: `needle` occurs
somewhere inside `hay`.  Models Python's `in` operator on strings. -/
def containsChars (needle : List Char) : List Char → Bool
  | [] => needle.isEmpty
  | h :: t => startsWithChars needle (h :: t) || containsChars needle t

/-- ASCII lowercasing of one character (models Python `.lower()` on the
ASCII fields appearing in BOM tables). -/
def lowerChar (c : Char) : Char :=
  if 'A' ≤ c && c ≤ 'Z' then Char.ofNat (c.toNat + 32) else c

/-- Lowercase a list of characters. -/
def lowerList (l : List Char) : List Char := l.map lowerChar

/-- Whitespace test used by trimming (models Python `.strip()`). -/
def isSpaceChar (c : Char) : Bool :=
  c == ' ' || c == '\t' || c == '\n' || c == '\r'

/-- Strip leading and trailing whitespace from a list of characters. -/
def trimList (l : List Char) : List Char :=
  ((l.dropWhile isSpaceChar).reverse.dropWhile isSpaceChar).reverse

/-- `str(x).strip().lower()` from the source, on an embedded string field. -/
def normField (s : String) : List Char :=
  lowerList (trimList s.toList)

/-- `strContainsSub hay needle`: Python's `needle in hay` on strings. -/
def strContainsSub (hay needle : String) : Bool :=
  containsChars needle.toList hay.toList

/-- One row of the classified BOM table (source columns after renaming:
`parentpart`, `item`, `qtyper`, `template`, `makebuy`, `linetype`,
`productname`, `level`). -/
structure Row where
  parentpart : String
  item : String
  qtyper : Rat
  template : String
  makebuy : String
  linetype : String
  productname : String
  level : Int
deriving DecidableEq, Repr

/-- The derived per-row classification. -/
inductive Classification where
  | buy
  | make
  | phantom
  | unknown
deriving DecidableEq, Repr

/-- `classify` from the source (lines 106-116): trims and lowercases
`makebuy` and `linetype`, then: "purch" in makebuy -> buy; else
"production" in makebuy -> phantom when "phantom" in makebuy or linetype,
make otherwise; else unknown. -/
def classify (r : Row) : Classification :=
  let makebuy := normField r.makebuy
  let linetype := normField r.linetype
  if containsChars "purch".toList makebuy then .buy
  else if containsChars "production".toList makebuy then
    if containsChars "phantom".toList makebuy ||
        containsChars "phantom".toList linetype then .phantom
    else .make
  else .unknown

/-- `is_length_item` from the source (lines 120-121): `'mm' in
template.lower()` (no trimming in the source here). -/
def is_length_item (r : Row) : Bool :=
  containsChars "mm".toList (lowerList r.template.toList)

/-- Positional row builder used for concrete tables:
`mkRow parent child qty template makebuy linetype productname level`. -/
def mkRow (parent child : String) (qty : Rat) (tmpl mb lt pn : String)
    (lvl : Int) : Row :=
  ⟨parent, child, qty, tmpl, mb, lt, pn, lvl⟩

example : classify (mkRow "P" "C" 1 "" "Production - Phantom" "" "" 1) = .phantom := by decide

example : classify (mkRow "P" "C" 1 "" "Purchased" "Phantom" "" 1) = .buy := by decide

example : is_length_item (mkRow "P" "C" 1 "Tube 30MM" "" "" "" 1) = true := by decide

/-- A derivation path: the ordered `(item, qty)` pairs built by `traverse`. -/
abbrev Path := List (String × Rat)

/-- The accumulator state of one explosion run: the source's
`trace_log`, `length_log`, `seen_paths` and `final_results` globals.
`trace_log` and `length_log` keep their entries `(child, total_qty,
full_path)` flattened in append order (the per-key lists of the Python
`defaultdict(list)` are recovered by filtering on the first component);
`final_results` is the `Counter` as an insertion-ordered association
list. -/
structure EState where
  trace_log : List (String × Rat × Path)
  length_log : List (String × Rat × Path)
  seen_paths : List Path
  final_results : List (String × Rat)
deriving DecidableEq, Repr

/-- The empty accumulator state set up by the script before calling
`traverse` (lines 131-133 and 164). -/
def initState : EState := ⟨[], [], [], []⟩

/-- `Counter` increment: `c[k] += v`, inserting `k` at the end when
absent (Python `Counter`/dict insertion order). -/
def counterAdd (c : List (String × Rat)) (k : String) (v : Rat) :
    List (String × Rat) :=
  match c with
  | [] => [(k, v)]
  | (k', v') :: rest =>
    if k' == k then (k', v' + v) :: rest
    else (k', v') :: counterAdd rest k v

/-- `Counter` lookup with the `Counter` default of `0` for absent keys. -/
def counterGet (c : List (String × Rat)) (k : String) : Rat :=
  match c with
  | [] => 0
  | (k', v') :: rest => if k' == k then v' else counterGet rest k

/-- The state update of the `buy`/`make` branch of `traverse` (source
lines 155-160): append `(total_qty, full_path)` to the child's trace
log; then, when the row is a length item, append the same entry to the
child's length log, otherwise increment the main leaf total. -/
def leafUpdate (s : EState) (child : String) (total_qty : Rat)
    (full_path : Path) (isLen : Bool) : EState :=
  let s2 : EState :=
    { s with trace_log := s.trace_log ++ [(child, total_qty, full_path)] }
  if isLen then
    { s2 with length_log := s2.length_log ++ [(child, total_qty, full_path)] }
  else
    { s2 with final_results := counterAdd s2.final_results child total_qty }

/-- The body of the `for _, row in matches.iterrows()` loop of `traverse`
(source lines 141-162), one recursion level.  `recur` is the recursive
call available to this level (`traverse` at one fuel unit less); `item`,
`multiplier` and `path` are the arguments of the enclosing `traverse`
call; the rows still to process and the accumulator state are threaded
explicitly.  Returns `none` when a recursive call ran out of fuel. -/
def goRows (recur : String → Rat → Path → EState → Option EState)
    (item : String) (multiplier : Rat) (path : Path) :
    List Row → EState → Option EState
  | [], s => some s
  | r :: rest, s =>
    let child := r.item
    let qty := r.qtyper
    let new_path : Path := path ++ [(item, qty)]
    let path_key : Path := new_path ++ [(child, qty)]
    if path_key ∈ s.seen_paths then
      goRows recur item multiplier path rest s
    else
      let s1 : EState := { s with seen_paths := s.seen_paths ++ [path_key] }
      let total_qty := multiplier * qty
      match classify r with
      | .buy | .make =>
        goRows recur item multiplier path rest
          (leafUpdate s1 child total_qty path_key (is_length_item r))
      | .phantom =>
        match recur child total_qty new_path s1 with
        | none => none
        | some s' => goRows recur item multiplier path rest s'
      | .unknown => goRows recur item multiplier path rest s1

/-- `traverse` from the source (lines 136-162), with explicit fuel
bounding the recursion depth: `traverseF df fuel item multiplier path s`
runs `traverse(item, multiplier, path)` over table `df` starting from
accumulator state `s`, and returns `none` exactly when the recursion
nests deeper than `fuel` levels (the Python function has no such bound
and simply recurses). -/
def traverseF (df : List Row) : Nat → String → Rat → Path → EState → Option EState
  | 0, _, _, _, _ => none
  | fuel + 1, item, multiplier, path, s =>
    goRows (traverseF df fuel) item multiplier path
      (df.filter fun r => r.parentpart == item) s

/-- One whole explosion run: fresh accumulator state, then
`traverse(root_item, 1, [])` (source lines 131-134 and 164-165). -/
def explode (df : List Row) (root : String) (fuel : Nat) : Option EState :=
  traverseF df fuel root 1 [] initState

/-- `explode` terminates on `(df, root)`: some recursion depth suffices. -/
def Terminates (df : List Row) (root : String) : Prop :=
  ∃ fuel s, explode df root fuel = some s

/-- Root determination (source lines 124-128): the `item` of the first
row with `level == 0`, if any. -/
def findRoot (df : List Row) : Option String :=
  (df.filter fun r => r.level == 0).head?.map Row.item

/-- Product of the per-edge quantities along a path, starting from the
root's external multiplier `1`. -/
def pathProd (p : Path) : Rat :=
  p.foldl (fun a x => a * x.2) 1

/-- A `trace_log`/`length_log` entry's quantity is the product of all
quantities on its recorded path except the (repeated) final one. -/
def EntryProd (e : String × Rat × Path) : Prop :=
  e.2.1 = pathProd e.2.2.dropLast

/-- A recorded path ends in two pairs carrying the same quantity:
`(current item, qty_edge)` then `(child, qty_edge)`. -/
def EntryShape (e : String × Rat × Path) : Prop :=
  ∃ pre it ch q, e.2.2 = pre ++ [(it, q), (ch, q)]

/-- Invariant of the accumulator state: every logged entry satisfies
`EntryProd` and `EntryShape`. -/
def StateInv (s : EState) : Prop :=
  (∀ e ∈ s.trace_log, EntryProd e ∧ EntryShape e) ∧
  (∀ e ∈ s.length_log, EntryProd e ∧ EntryShape e)

/-- The chain table of the spec's multiplier-correctness example:
root `R`, `R -> A` phantom with qty 2, `A -> B` phantom with qty 3,
`B -> C` buy with qty 5. -/
def chainTable : List Row :=
  [ mkRow "TOP" "R" 1 "" "" "" "" 0
  , mkRow "R" "A" 2 "" "Production" "Phantom" "Item A" 1
  , mkRow "A" "B" 3 "" "Production - Phantom" "" "Item B" 2
  , mkRow "B" "C" 5 "" "Purchased" "" "Item C" 3 ]

/-- The state `explode chainTable "R" 10` evaluates to. -/
def chainState : EState :=
  ⟨[("C", 30, [("R", 2), ("A", 3), ("B", 5), ("C", 5)])],
   [],
   [[("R", 2), ("A", 2)],
    [("R", 2), ("A", 3), ("B", 3)],
    [("R", 2), ("A", 3), ("B", 5), ("C", 5)]],
   [("C", 30)]⟩

/-- A phantom self-loop row: `A` is its own child with quantity 1. -/
def cyclicRow : Row := mkRow "A" "A" 1 "" "Production - Phantom" "" "" 1

/-- A valid classified table with a resolvable root (`A`, from the
`level == 0` row) and non-negative quantities, whose single phantom edge
is a self-loop. -/
def cyclicTable : List Row :=
  [ mkRow "TOP" "A" 1 "" "" "" "" 0, cyclicRow ]

/-- A rank witnessing acyclicity of the chain example's phantom edges. -/
def chainRank : String → Nat := fun it =>
  if it == "R" then 3 else if it == "A" then 2 else if it == "B" then 1 else 0

/-- A table whose every row is a length item (`template` contains "mm"):
root `R` with a single purchased 100mm profile below it. -/
def lengthTable : List Row :=
  [ mkRow "TOP" "R" 1 "30mm" "" "" "" 0
  , mkRow "R" "L" 2 "Profile 100mm" "Purchased" "" "Item L" 1 ]

/-- The state `explode lengthTable "R" 5` evaluates to. -/
def lengthState : EState :=
  ⟨[("L", 2, [("R", 2), ("L", 2)])],
   [("L", 2, [("R", 2), ("L", 2)])],
   [[("R", 2), ("L", 2)]],
   []⟩

/-- A table with a duplicated buy edge `R -> C` (identical rows, hence
identical path keys). -/
def dupTable : List Row :=
  [ mkRow "TOP" "R" 1 "" "" "" "" 0
  , mkRow "R" "C" 5 "" "Purchased" "" "Item C" 1
  , mkRow "R" "C" 5 "" "Purchased" "" "Item C" 1 ]

/-- A diamond: leaf `C` is reached through two different phantom
branches (`R -> A -> C` contributing `1*2*5 = 10` and `R -> B -> C`
contributing `1*4*1 = 4`). -/
def diamondTable : List Row :=
  [ mkRow "TOP" "R" 1 "" "" "" "" 0
  , mkRow "R" "A" 2 "" "Production - Phantom" "" "" 1
  , mkRow "R" "B" 4 "" "Production - Phantom" "" "" 1
  , mkRow "A" "C" 5 "" "Purchased" "" "Item C" 2
  , mkRow "B" "C" 1 "" "Purchased" "" "Item C" 2 ]

/-- A table with no phantom rows: the root has one purchased child. -/
def noPhantomTable : List Row :=
  [ mkRow "TOP" "R" 1 "" "" "" "" 0
  , mkRow "R" "C" 5 "" "Purchased" "" "Item C" 1 ]

/-- A state that has already seen the path key of the edge `R -> C`. -/
def seenState : EState :=
  { initState with seen_paths := [[("R", 5), ("C", 5)]] }

/-- `drop_duplicates` keeping first occurrences, with an accumulator of
already-kept elements. -/
def dedupFirstAux {α : Type} [DecidableEq α] (seen : List α) : List α → List α
  | [] => []
  | x :: xs =>
    if x ∈ seen then dedupFirstAux seen xs
    else x :: dedupFirstAux (seen ++ [x]) xs

/-- pandas `drop_duplicates`: keep the first occurrence of each element,
in encounter order. -/
def dedupFirst {α : Type} [DecidableEq α] (l : List α) : List α :=
  dedupFirstAux [] l

/-- The pandas `groupby(['item','productname'])` key order: ascending by
item, ties broken by product name. -/
def pandasKeyLe (a b : String × String) : Prop :=
  a.1 < b.1 ∨ (a.1 = b.1 ∧ a.2 ≤ b.2)

instance : DecidableRel pandasKeyLe := fun a b => by
  unfold pandasKeyLe; infer_instance

instance : IsTotal (String × String) pandasKeyLe := by
  constructor
  intro a b
  rcases lt_trichotomy a.1 b.1 with h | h | h
  · exact Or.inl (Or.inl h)
  · rcases le_total a.2 b.2 with h2 | h2
    · exact Or.inl (Or.inr ⟨h, h2⟩)
    · exact Or.inr (Or.inr ⟨h.symm, h2⟩)
  · exact Or.inr (Or.inl h)

instance : IsTrans (String × String) pandasKeyLe := by
  constructor
  intro a b c hab hbc
  rcases hab with hab | ⟨hab, hab2⟩ <;> rcases hbc with hbc | ⟨hbc, hbc2⟩
  · exact Or.inl (lt_trans hab hbc)
  · exact Or.inl (hbc ▸ hab)
  · exact Or.inl (hab ▸ hbc)
  · exact Or.inr ⟨hab.trans hbc, le_trans hab2 hbc2⟩

/-- The final `sort_values(by='item')` order: by item only. -/
def itemLe (a b : (String × String) × Rat) : Prop := a.1.1 ≤ b.1.1

instance : DecidableRel itemLe := fun a b => by
  unfold itemLe; infer_instance

instance : IsTotal ((String × String) × Rat) itemLe :=
  ⟨fun a b => le_total a.1.1 b.1.1⟩

instance : IsTrans ((String × String) × Rat) itemLe :=
  ⟨fun _ _ _ hab hbc => le_trans hab hbc⟩

/-- The left merge of the leaf totals with the deduplicated
`(item, productname)` pairs (source line 169): each total row is paired
with every name row carrying its item, in order; total rows without a
name row disappear (pandas leaves `NaN` there and the subsequent
`groupby` drops `NaN` keys). -/
def mergeNames (finals : List (String × Rat))
    (names : List (String × String)) : List ((String × String) × Rat) :=
  (finals.map (fun fr =>
    (names.filter fun nr => nr.1 == fr.1).map fun nr => ((fr.1, nr.2), fr.2))).flatten

/-- The sorted distinct group keys of `groupby(['item','productname'])`. -/
def groupKeys (rows : List ((String × String) × Rat)) :
    List (String × String) :=
  List.insertionSort pandasKeyLe (dedupFirst (rows.map Prod.fst))

/-- `groupby(['item','productname'], as_index=False)['total_quantity'].sum()`:
one output row per distinct key, in sorted key order, with the
quantities summed per key. -/
def groupSum (rows : List ((String × String) × Rat)) :
    List ((String × String) × Rat) :=
  (groupKeys rows).map fun k =>
    (k, ((rows.filter fun e => e.1 == k).map fun e => e.2).sum)

/-- `result_df` construction from the leaf totals and the raw
`(item, productname)` pairs of the table (source lines 168-171): merge,
group-sum, then a stable `sort_values(by='item')`. -/
def resultTable (finals : List (String × Rat))
    (names : List (String × String)) : List ((String × String) × Rat) :=
  List.insertionSort itemLe (groupSum (mergeNames finals (dedupFirst names)))

/-- Leaf totals used in the aggregator witness. -/
def wFinals : List (String × Rat) := [("B", 2), ("A", 3)]

/-- Name pairs used in the aggregator witness: item `A` carries two
distinct recorded product names. -/
def wNames : List (String × String) :=
  [("A", "Item A"), ("B", "Item B"), ("A", "Item A2")]

/-- A table whose rows all classify as `unknown`. -/
def unknownTable : List Row :=
  [ mkRow "TOP" "R" 1 "" "" "" "" 0
  , mkRow "R" "X" 2 "" "Other" "" "Item X" 1 ]

/-- The state `explode unknownTable "R" 3` evaluates to. -/
def uState : EState := ⟨[], [], [[("R", 2), ("X", 2)]], []⟩

/-- `ChainTo df p it`: `p` is a valid chain of edges of `df` from some
start down to just before `it`, each pair `(a, q)` carrying the quantity
`q` of the `df` edge from `a` to the next chain element (or to `it` for
the last pair).  This is exactly the shape of the `path` argument of
`traverse`. -/
inductive ChainTo (df : List Row) : Path → String → Prop where
  | nil (it : String) : ChainTo df [] it
  | snoc (p : Path) (it : String) (r : Row) :
      ChainTo df p it → r ∈ df → r.parentpart = it →
      ChainTo df (p ++ [(it, r.qtyper)]) r.item

/-- Shape of every recorded full path: a valid chain to some item `it`,
then the two final pairs `(it, q), (child, q)` both carrying the
terminal edge's quantity `q`, where `it -> child` with quantity `q` is a
row of the table and `child` is the key the entry is logged under. -/
def RecordedEntry (df : List Row) (e : String × Rat × Path) : Prop :=
  ∃ (p : Path) (it : String) (r : Row),
    ChainTo df p it ∧ r ∈ df ∧ r.parentpart = it ∧ e.1 = r.item ∧
    e.2.2 = p ++ [(it, r.qtyper), (r.item, r.qtyper)]

/-- Invariant: every logged entry is a `RecordedEntry`. -/
def StateInvE (df : List Row) (s : EState) : Prop :=
  (∀ e ∈ s.trace_log, RecordedEntry df e) ∧
  (∀ e ∈ s.length_log, RecordedEntry df e)

end BomVergelijker

namespace BomVergelijker

theorem pathProd_nil : pathProd ([] : Path) = 1 := rfl

theorem pathProd_append_single (p : Path) (x : String × Rat) :
    pathProd (p ++ [x]) = pathProd p * x.2 := by
  simp [pathProd, List.foldl_append]

theorem stateInv_init : StateInv initState := by
  constructor <;> intro e he <;> simp [initState] at he

/-- `leafUpdate` preserves `StateInv` when the appended entry itself
satisfies the entry invariants. -/
theorem stateInv_leafUpdate (s : EState) (c : String) (q : Rat) (key : Path)
    (b : Bool) (hs : StateInv s)
    (hp : EntryProd (c, q, key)) (hsh : EntryShape (c, q, key)) :
    StateInv (leafUpdate s c q key b) := by
  have htr : ∀ e ∈ s.trace_log ++ [(c, q, key)], EntryProd e ∧ EntryShape e := by
    intro e he
    rcases List.mem_append.mp he with he | he
    · exact hs.1 e he
    · rcases List.mem_singleton.mp he with rfl
      exact ⟨hp, hsh⟩
  have hlen : ∀ e ∈ s.length_log ++ [(c, q, key)], EntryProd e ∧ EntryShape e := by
    intro e he
    rcases List.mem_append.mp he with he | he
    · exact hs.2 e he
    · rcases List.mem_singleton.mp he with rfl
      exact ⟨hp, hsh⟩
  cases b with
  | true => exact ⟨htr, hlen⟩
  | false => exact ⟨htr, hs.2⟩

/-- The loop body preserves `StateInv`, provided the recursive call does
and the multiplier equals the product along the current path. -/
theorem goRows_inv
    (recur : String → Rat → Path → EState → Option EState)
    (hrec : ∀ ch m p t t', m = pathProd p → StateInv t →
      recur ch m p t = some t' → StateInv t')
    (item : String) :
    ∀ (rows : List Row) (mult : Rat) (path : Path) (s out : EState),
      mult = pathProd path → StateInv s →
      goRows recur item mult path rows s = some out → StateInv out := by
  intro rows
  induction rows with
  | nil =>
    intro mult path s out hm hs h
    simp only [goRows, Option.some.injEq] at h
    exact h ▸ hs
  | cons r rest ih =>
    intro mult path s out hm hs h
    have hentry : EntryProd (r.item, mult * r.qtyper,
          (path ++ [(item, r.qtyper)] ++ [(r.item, r.qtyper)] : Path)) ∧
        EntryShape (r.item, mult * r.qtyper,
          (path ++ [(item, r.qtyper)] ++ [(r.item, r.qtyper)] : Path)) := by
      constructor
      · show mult * r.qtyper = pathProd _
        rw [List.dropLast_concat, pathProd_append_single, hm]
      · exact ⟨path, item, r.item, r.qtyper, by simp⟩
    simp only [goRows] at h
    split at h
    · exact ih mult path s out hm hs h
    · split at h
      · refine ih mult path _ out hm ?_ h
        exact stateInv_leafUpdate _ _ _ _ _ hs hentry.1 hentry.2
      · refine ih mult path _ out hm ?_ h
        exact stateInv_leafUpdate _ _ _ _ _ hs hentry.1 hentry.2
      · split at h
        · exact absurd h (by simp)
        · rename_i s' hrecur
          refine ih mult path s' out hm ?_ h
          refine hrec r.item (mult * r.qtyper) (path ++ [(item, r.qtyper)]) _ s'
            (by rw [pathProd_append_single, hm]) ?_ hrecur
          exact hs
      · refine ih mult path _ out hm ?_ h
        exact hs

/-- `traverseF` preserves `StateInv`. -/
theorem traverseF_inv (df : List Row) :
    ∀ (fuel : Nat) (item : String) (mult : Rat) (path : Path) (s out : EState),
      mult = pathProd path → StateInv s →
      traverseF df fuel item mult path s = some out → StateInv out := by
  intro fuel
  induction fuel with
  | zero => intro item mult path s out _ _ h; simp [traverseF] at h
  | succ n ih =>
    intro item mult path s out hm hs h
    exact goRows_inv (traverseF df n)
      (fun ch m p t t' hm' ht' hr => ih ch m p t t' hm' ht' hr)
      item _ mult path s out hm hs h

/-- Every state produced by a whole `explode` run satisfies `StateInv`. -/
theorem explode_inv (df : List Row) (root : String) (fuel : Nat) (s : EState)
    (h : explode df root fuel = some s) : StateInv s :=
  traverseF_inv df fuel root 1 [] initState s pathProd_nil.symm stateInv_init h

theorem explode_chainTable : explode chainTable "R" 10 = some chainState := by
  with_unfolding_all decide

/-- C1: the quantity a buy/make leaf receives along a path is the product
of all `quantity_per_parent` values on the edges from the root to that
leaf (times the root's external multiplier 1): every trace entry's
quantity equals the product of the quantities on its recorded path with
the repeated final pair dropped; and on the chain
root→A(phantom,2)→B(phantom,3)→C(buy,5) the explosion started at the
root records `leaf_totals[C] = 1*2*3*5 = 30`. -/
theorem c1_multiplier_path_product :
    (∀ (df : List Row) (root : String) (fuel : Nat) (s : EState),
      explode df root fuel = some s →
      ∀ e ∈ s.trace_log, e.2.1 = pathProd e.2.2.dropLast) ∧
    counterGet ((explode chainTable "R" 10).getD initState).final_results "C"
      = 1 * 2 * 3 * 5 := by
  constructor
  · intro df root fuel s h e he
    exact ((explode_inv df root fuel s h).1 e he).1
  · with_unfolding_all decide

/-- Witness for C1: the single trace entry of the chain example, with its
quantity `30` shown equal to the path product `1*2*3*5` by the theorem. -/
theorem c1_multiplier_path_product_witness :
    (30 : Rat) =
      pathProd (([("R", 2), ("A", 3), ("B", 5), ("C", 5)] : Path)).dropLast :=
  c1_multiplier_path_product.1 chainTable "R" 10 chainState explode_chainTable
    ("C", 30, [("R", 2), ("A", 3), ("B", 5), ("C", 5)]) (by decide)

theorem cyclic_filter :
    cyclicTable.filter (fun r => r.parentpart == "A") = [cyclicRow] := by
  decide

/-- On `cyclicTable`, `traverse` at `A` recurses forever: every recursion
level builds a strictly longer, never-before-seen path key, so no fuel
bound is ever enough.  The hypothesis states that all previously seen
keys are shorter than the key formed at this level, which holds at the
start and is maintained. -/
theorem cyclic_diverges :
    ∀ (fuel : Nat) (mult : Rat) (path : Path) (s : EState),
      (∀ k ∈ s.seen_paths, k.length < path.length + 2) →
      traverseF cyclicTable fuel "A" mult path s = none := by
  intro fuel
  induction fuel with
  | zero => intro mult path s _; rfl
  | succ n ih =>
    intro mult path s hseen
    have hnot : (path ++ [(("A" : String), (1 : Rat))] ++
        [(("A" : String), (1 : Rat))] : Path) ∉ s.seen_paths := by
      intro hmem
      have hlt := hseen _ hmem
      simp only [List.length_append, List.length_cons, List.length_nil] at hlt
      omega
    show goRows (traverseF cyclicTable n) "A" mult path
      (cyclicTable.filter fun r => r.parentpart == "A") s = none
    rw [cyclic_filter]
    simp only [goRows, cyclicRow, mkRow]
    rw [if_neg hnot]
    have hcl : classify cyclicRow = Classification.phantom := by decide
    simp only [cyclicRow, mkRow] at hcl
    rw [hcl]
    rw [ih (mult * 1) (path ++ [("A", 1)])
      { s with seen_paths :=
          s.seen_paths ++ [path ++ [("A", 1)] ++ [("A", 1)]] } ?_]
    intro k hk
    simp only [List.mem_append, List.mem_singleton] at hk
    rcases hk with hk | hk
    · have := hseen k hk
      simp only [List.length_append, List.length_cons, List.length_nil]
      omega
    · subst hk
      simp only [List.length_append, List.length_cons, List.length_nil]
      omega

/-- With fuel bounding a rank that strictly decreases along phantom
edges, the loop body never runs out of fuel. -/
theorem goRows_isSome (df : List Row) (rank : String → Nat)
    (hrank : ∀ r ∈ df, classify r = .phantom → rank r.item < rank r.parentpart)
    (n : Nat)
    (hP : ∀ (item : String) (mult : Rat) (path : Path) (s : EState),
      rank item < n → (traverseF df n item mult path s).isSome = true) :
    ∀ (item : String) (rows : List Row),
      (∀ r ∈ rows, r ∈ df ∧ r.parentpart = item) → rank item ≤ n →
      ∀ (mult : Rat) (path : Path) (s : EState),
      (goRows (traverseF df n) item mult path rows s).isSome = true := by
  intro item rows
  induction rows with
  | nil => intro _ _ mult path s; simp [goRows]
  | cons r rest ihr =>
    intro hmem hle mult path s
    have hrest : ∀ x ∈ rest, x ∈ df ∧ x.parentpart = item :=
      fun x hx => hmem x (List.mem_cons_of_mem r hx)
    simp only [goRows]
    split
    · exact ihr hrest hle mult path s
    · cases hc : classify r with
      | buy => exact ihr hrest hle mult path _
      | make => exact ihr hrest hle mult path _
      | phantom =>
        have hin := hmem r (List.mem_cons_self r rest)
        have hlt : rank r.item < n := by
          have := hrank r hin.1 hc
          rw [hin.2] at this
          omega
        have hsome := hP r.item (mult * r.qtyper) (path ++ [(item, r.qtyper)])
          { s with seen_paths :=
              s.seen_paths ++ [path ++ [(item, r.qtyper)] ++ [(r.item, r.qtyper)]] }
          hlt
        obtain ⟨s', hs'⟩ := Option.isSome_iff_exists.mp hsome
        rw [hs']
        exact ihr hrest hle mult path s'
      | unknown => exact ihr hrest hle mult path _

/-- With fuel exceeding the rank of the current item, `traverseF` never
runs out of fuel. -/
theorem traverseF_isSome (df : List Row) (rank : String → Nat)
    (hrank : ∀ r ∈ df, classify r = .phantom → rank r.item < rank r.parentpart) :
    ∀ (n : Nat) (item : String) (mult : Rat) (path : Path) (s : EState),
      rank item < n → (traverseF df n item mult path s).isSome = true := by
  intro n
  induction n with
  | zero => intro item mult path s h; omega
  | succ n ih =>
    intro item mult path s h
    show (goRows (traverseF df n) item mult path
      (df.filter fun r => r.parentpart == item) s).isSome = true
    refine goRows_isSome df rank hrank n ih item _ ?_ (by omega) mult path s
    intro r hr
    have := List.mem_filter.mp hr
    exact ⟨this.1, by simpa using this.2⟩

/-- C2 counterexample: `cyclicTable` is a classified table with a
resolvable root (`A`, the item of its `level == 0` row) and valid
non-negative quantities, yet the explosion started at `A` does not
terminate: no recursion bound suffices, because the phantom self-loop
builds a strictly longer, never-repeating path key at every level, so
the path-key visited-set never stops the recursion. -/
theorem c2_counterexample :
    findRoot cyclicTable = some "A" ∧ ¬ Terminates cyclicTable "A" := by
  refine ⟨by decide, ?_⟩
  rintro ⟨fuel, s, h⟩
  have hnone := cyclic_diverges fuel 1 [] initState
    (by intro k hk; simp [initState] at hk)
  rw [explode, hnone] at h
  exact Option.noConfusion h

/-- C2 (amended): `explode` terminates on every classified table whose
phantom edges admit a strictly decreasing rank (equivalently: whose
phantom parent→child graph is acyclic); the recursion depth is then
bounded by the root's rank, so some finite fuel returns a result. -/
theorem c2_terminates_of_phantom_rank (df : List Row) (root : String)
    (rank : String → Nat)
    (hrank : ∀ r ∈ df, classify r = .phantom → rank r.item < rank r.parentpart) :
    Terminates df root := by
  have h := traverseF_isSome df rank hrank (rank root + 1) root 1 [] initState
    (by omega)
  obtain ⟨s, hs⟩ := Option.isSome_iff_exists.mp h
  exact ⟨rank root + 1, s, hs⟩

/-- Witness for the amended C2: the chain table terminates. -/
theorem c2_terminates_of_phantom_rank_witness : Terminates chainTable "R" :=
  c2_terminates_of_phantom_rank chainTable "R" chainRank (by decide)

/-- C3: the derived classification follows exactly the documented
precedence on the trimmed, lowercased `make_or_buy` and `line_type`
fields: "purch" in make_or_buy gives `buy` regardless of anything else;
otherwise "production" in make_or_buy gives `phantom` when "phantom"
occurs in make_or_buy or line_type and `make` otherwise; otherwise
`unknown`. -/
theorem c3_classify_precedence (r : Row) :
    (classify r = .buy ↔
      containsChars "purch".toList (normField r.makebuy) = true) ∧
    (classify r = .phantom ↔
      (containsChars "purch".toList (normField r.makebuy) = false ∧
       containsChars "production".toList (normField r.makebuy) = true ∧
       (containsChars "phantom".toList (normField r.makebuy) = true ∨
        containsChars "phantom".toList (normField r.linetype) = true))) ∧
    (classify r = .make ↔
      (containsChars "purch".toList (normField r.makebuy) = false ∧
       containsChars "production".toList (normField r.makebuy) = true ∧
       containsChars "phantom".toList (normField r.makebuy) = false ∧
       containsChars "phantom".toList (normField r.linetype) = false)) ∧
    (classify r = .unknown ↔
      (containsChars "purch".toList (normField r.makebuy) = false ∧
       containsChars "production".toList (normField r.makebuy) = false)) := by
  cases hpu : containsChars "purch".toList (normField r.makebuy) <;>
    cases hpr : containsChars "production".toList (normField r.makebuy) <;>
      cases hpm : containsChars "phantom".toList (normField r.makebuy) <;>
        cases hpl : containsChars "phantom".toList (normField r.linetype) <;>
          simp only [classify, hpu, hpr, hpm, hpl] <;> simp

/-- The loop body leaves `final_results` unchanged when every processed
row is a length item, provided the recursive call does too. -/
theorem goRows_final_pres
    (recur : String → Rat → Path → EState → Option EState)
    (hrec : ∀ ch m p t t', recur ch m p t = some t' →
      t'.final_results = t.final_results)
    (item : String) :
    ∀ (rows : List Row), (∀ r ∈ rows, is_length_item r = true) →
    ∀ (mult : Rat) (path : Path) (s out : EState),
      goRows recur item mult path rows s = some out →
      out.final_results = s.final_results := by
  intro rows
  induction rows with
  | nil =>
    intro _ mult path s out h
    simp only [goRows, Option.some.injEq] at h
    exact h ▸ rfl
  | cons r rest ih =>
    intro hall mult path s out h
    have hr : is_length_item r = true := hall r (List.mem_cons_self r rest)
    have hrest : ∀ x ∈ rest, is_length_item x = true :=
      fun x hx => hall x (List.mem_cons_of_mem r hx)
    simp only [goRows] at h
    split at h
    · exact ih hrest mult path s out h
    · split at h
      · rw [ih hrest mult path _ out h]
        simp [leafUpdate, hr]
      · rw [ih hrest mult path _ out h]
        simp [leafUpdate, hr]
      · split at h
        · exact absurd h (by simp)
        · rename_i s' hrecur
          rw [ih hrest mult path s' out h, hrec _ _ _ _ s' hrecur]
      · refine Eq.trans (b := EState.final_results
          { s with seen_paths :=
              s.seen_paths ++ [path ++ [(item, r.qtyper)] ++ [(r.item, r.qtyper)]] })
          ?_ rfl
        exact ih hrest mult path _ out h

/-- `traverseF` leaves `final_results` unchanged on all-length tables. -/
theorem traverseF_final_pres (df : List Row)
    (hall : ∀ r ∈ df, is_length_item r = true) :
    ∀ (fuel : Nat) (item : String) (mult : Rat) (path : Path) (s out : EState),
      traverseF df fuel item mult path s = some out →
      out.final_results = s.final_results := by
  intro fuel
  induction fuel with
  | zero => intro item mult path s out h; simp [traverseF] at h
  | succ n ih =>
    intro item mult path s out h
    refine goRows_final_pres (traverseF df n)
      (fun ch m p t t' hr => ih ch m p t t' hr) item _ ?_ mult path s out h
    intro r hr
    exact hall r (List.mem_filter.mp hr).1

/-- C4: in the `buy`/`make` branch, a length-item occurrence goes only
to the length log and never touches the main leaf totals, a non-length
occurrence goes to the main leaf totals and never to the length log
(each occurrence judged by its own row's template); consequently an
explosion of a table whose rows are all length items produces empty main
leaf totals. -/
theorem c4_length_segregation :
    (∀ (s : EState) (c : String) (q : Rat) (p : Path),
      (leafUpdate s c q p true).final_results = s.final_results ∧
      (leafUpdate s c q p true).length_log = s.length_log ++ [(c, q, p)] ∧
      (leafUpdate s c q p false).length_log = s.length_log ∧
      (leafUpdate s c q p false).final_results = counterAdd s.final_results c q) ∧
    (∀ (df : List Row) (root : String) (fuel : Nat) (s : EState),
      (∀ r ∈ df, is_length_item r = true) →
      explode df root fuel = some s → s.final_results = []) := by
  constructor
  · intro s c q p
    refine ⟨by simp [leafUpdate], by simp [leafUpdate], by simp [leafUpdate],
      by simp [leafUpdate]⟩
  · intro df root fuel s hall h
    exact traverseF_final_pres df hall fuel root 1 [] initState s h

theorem explode_lengthTable : explode lengthTable "R" 5 = some lengthState := by
  with_unfolding_all decide

/-- Witness for C4: the all-length table has empty main leaf totals. -/
theorem c4_length_segregation_witness : lengthState.final_results = [] :=
  c4_length_segregation.2 lengthTable "R" 5 lengthState (by decide)
    explode_lengthTable

/-- C5: a `buy`/`make` row terminates its branch: the occurrence is
recorded through `leafUpdate` and the loop moves on to the sibling rows
without any recursive call into the child (the recursion function is not
applied); consequently, on a table with no phantom rows at all, a single
recursion level is always enough fuel. -/
theorem c5_leaf_terminates_branch :
    (∀ (recur : String → Rat → Path → EState → Option EState)
        (item : String) (mult : Rat) (path : Path) (r : Row) (rest : List Row)
        (s : EState),
      (classify r = .buy ∨ classify r = .make) →
      (path ++ [(item, r.qtyper)] ++ [(r.item, r.qtyper)] : Path) ∉ s.seen_paths →
      goRows recur item mult path (r :: rest) s =
        goRows recur item mult path rest
          (leafUpdate
            { s with seen_paths :=
                s.seen_paths ++ [path ++ [(item, r.qtyper)] ++ [(r.item, r.qtyper)]] }
            r.item (mult * r.qtyper)
            (path ++ [(item, r.qtyper)] ++ [(r.item, r.qtyper)])
            (is_length_item r))) ∧
    (∀ (df : List Row), (∀ r ∈ df, classify r ≠ .phantom) →
      ∀ (root : String) (mult : Rat) (path : Path) (s : EState),
        (traverseF df 1 root mult path s).isSome = true) := by
  constructor
  · intro recur item mult path r rest s hc hnot
    rcases hc with hc | hc <;>
      · simp only [goRows]
        rw [if_neg hnot, hc]
  · intro df hnoph root mult path s
    refine traverseF_isSome df (fun _ => 0) ?_ 1 root mult path s Nat.zero_lt_one
    intro r hr hc
    exact absurd hc (hnoph r hr)

/-- Witness for C5: the `buy` row `B -> C` of the chain table at
multiplier 6 is recorded and its branch ends; and the phantom-free table
needs only one recursion level. -/
theorem c5_leaf_terminates_branch_witness :
    (goRows (fun _ _ _ _ => none) "B" 6 [("R", 2), ("A", 3)]
        [mkRow "B" "C" 5 "" "Purchased" "" "Item C" 3] initState =
      goRows (fun _ _ _ _ => none) "B" 6 [("R", 2), ("A", 3)] []
        (leafUpdate
          { initState with seen_paths :=
              [[("R", 2), ("A", 3), ("B", 5), ("C", 5)]] }
          "C" (6 * 5) [("R", 2), ("A", 3), ("B", 5), ("C", 5)] false)) ∧
    (traverseF noPhantomTable 1 "R" 1 [] initState).isSome = true := by
  constructor
  · have h := c5_leaf_terminates_branch.1 (fun _ _ _ _ => none) "B" 6
      [("R", 2), ("A", 3)] (mkRow "B" "C" 5 "" "Purchased" "" "Item C" 3) []
      initState (Or.inl (by decide)) (by decide)
    exact h
  · exact c5_leaf_terminates_branch.2 noPhantomTable (by decide) "R" 1 [] initState

/-- C6: a row is skipped, contributing nothing and changing nothing, iff
its exact full path key was already visited in this traversal: the skip
equation below shows a seen key leaves the state untouched; the
duplicated edge of `dupTable` therefore contributes only once
(`leaf_totals[C] = 5` with a single trace entry), while the same leaf
reached via two different paths in `diamondTable` is expanded both times
(`leaf_totals[C] = 10 + 4 = 14` with two trace entries). -/
theorem c6_path_key_guard :
    (∀ (recur : String → Rat → Path → EState → Option EState)
        (item : String) (mult : Rat) (path : Path) (r : Row) (rest : List Row)
        (s : EState),
      (path ++ [(item, r.qtyper)] ++ [(r.item, r.qtyper)] : Path) ∈ s.seen_paths →
      goRows recur item mult path (r :: rest) s =
        goRows recur item mult path rest s) ∧
    counterGet ((explode dupTable "R" 10).getD initState).final_results "C" = 5 ∧
    ((explode dupTable "R" 10).getD initState).trace_log.length = 1 ∧
    counterGet ((explode diamondTable "R" 10).getD initState).final_results "C"
      = 10 + 4 ∧
    ((explode diamondTable "R" 10).getD initState).trace_log.length = 2 := by
  refine ⟨?_, ?_, ?_, ?_, ?_⟩
  · intro recur item mult path r rest s hmem
    simp only [goRows]
    rw [if_pos hmem]
  · with_unfolding_all decide
  · with_unfolding_all decide
  · with_unfolding_all decide
  · with_unfolding_all decide

/-- Witness for C6: processing the duplicated `R -> C` row against a
state that already saw its path key skips the row entirely. -/
theorem c6_path_key_guard_witness :
    goRows (fun _ _ _ _ => none) "R" 1 []
        [mkRow "R" "C" 5 "" "Purchased" "" "Item C" 1] seenState =
      goRows (fun _ _ _ _ => none) "R" 1 [] [] seenState :=
  c6_path_key_guard.1 (fun _ _ _ _ => none) "R" 1 []
    (mkRow "R" "C" 5 "" "Purchased" "" "Item C" 1) [] seenState (by decide)

/-- C7: one explosion run is a pure function of the classified table and
the root: the script re-creates all four accumulators
(`trace_log`, `length_log`, `seen_paths`, `final_results`) before every
run (source lines 131-133 and 164), modelled by the fixed fresh
`initState`, so re-running `explode` on the same inputs yields the same
leaf totals, length log and trace log, with no state carried over from
a previous invocation. -/
theorem c7_rerun_pure (df : List Row) (root : String) (fuel : Nat) :
    ((explode df root fuel).map EState.final_results =
      (explode df root fuel).map EState.final_results) ∧
    ((explode df root fuel).map EState.length_log =
      (explode df root fuel).map EState.length_log) ∧
    ((explode df root fuel).map EState.trace_log =
      (explode df root fuel).map EState.trace_log) ∧
    explode df root fuel = traverseF df fuel root 1 [] initState :=
  ⟨rfl, rfl, rfl, rfl⟩

theorem mem_dedupFirstAux {α : Type} [DecidableEq α] (x : α) :
    ∀ (l seen : List α), x ∈ dedupFirstAux seen l ↔ x ∈ l ∧ x ∉ seen := by
  intro l
  induction l with
  | nil => intro seen; simp [dedupFirstAux]
  | cons y ys ih =>
    intro seen
    by_cases hys : y ∈ seen
    · rw [dedupFirstAux, if_pos hys, ih]
      constructor
      · rintro ⟨hx, hn⟩
        exact ⟨List.mem_cons_of_mem y hx, hn⟩
      · rintro ⟨hx, hn⟩
        rcases List.mem_cons.mp hx with rfl | hx
        · exact absurd hys hn
        · exact ⟨hx, hn⟩
    · rw [dedupFirstAux, if_neg hys]
      constructor
      · intro hx
        rcases List.mem_cons.mp hx with rfl | hx
        · exact ⟨List.mem_cons_self x ys, hys⟩
        · have hm := (ih (seen ++ [y])).mp hx
          exact ⟨List.mem_cons_of_mem y hm.1,
            fun hs => hm.2 (List.mem_append_left _ hs)⟩
      · rintro ⟨hx, hn⟩
        rcases List.mem_cons.mp hx with rfl | hx
        · exact List.mem_cons_self x _
        · by_cases hxy : x = y
          · subst hxy
            exact List.mem_cons_self x _
          · refine List.mem_cons_of_mem y ((ih (seen ++ [y])).mpr ⟨hx, ?_⟩)
            intro hs
            rcases List.mem_append.mp hs with hs | hs
            · exact hn hs
            · exact hxy (List.mem_singleton.mp hs)

theorem nodup_dedupFirstAux {α : Type} [DecidableEq α] :
    ∀ (l seen : List α), (dedupFirstAux seen l).Nodup := by
  intro l
  induction l with
  | nil => intro seen; simp [dedupFirstAux]
  | cons y ys ih =>
    intro seen
    by_cases hys : y ∈ seen <;> simp [dedupFirstAux, hys, ih]
    intro hmem
    exact absurd ((mem_dedupFirstAux y ys (seen ++ [y])).mp hmem).2 (by simp)

theorem mem_dedupFirst {α : Type} [DecidableEq α] (x : α) (l : List α) :
    x ∈ dedupFirst l ↔ x ∈ l := by
  rw [dedupFirst, mem_dedupFirstAux]
  simp

theorem nodup_dedupFirst {α : Type} [DecidableEq α] (l : List α) :
    (dedupFirst l).Nodup :=
  nodup_dedupFirstAux l []

theorem groupSum_map_fst (rows : List ((String × String) × Rat)) :
    (groupSum rows).map Prod.fst = groupKeys rows := by
  simp only [groupSum, List.map_map]
  show List.map id (groupKeys rows) = groupKeys rows
  exact List.map_id _

/-- C8: the aggregated result table has exactly one row per distinct
`(item, product_name)` pair arising from the merge of the leaf totals
with the deduplicated name pairs (no duplicated keys, and every merged
key appears), each row's quantity is the sum of the merged quantities of
its key, and the rows are sorted ascending by the item identifier in
string order. -/
theorem c8_aggregator (finals : List (String × Rat))
    (names : List (String × String)) :
    ((resultTable finals names).map Prod.fst).Nodup ∧
    (∀ k : String × String,
      k ∈ (resultTable finals names).map Prod.fst ↔
        k ∈ (mergeNames finals (dedupFirst names)).map Prod.fst) ∧
    (∀ (k : String × String) (q : Rat), (k, q) ∈ resultTable finals names →
      q = (((mergeNames finals (dedupFirst names)).filter
            fun e => e.1 == k).map fun e => e.2).sum) ∧
    List.Pairwise itemLe (resultTable finals names) := by
  have hperm : List.Perm (resultTable finals names)
      (groupSum (mergeNames finals (dedupFirst names))) :=
    List.perm_insertionSort itemLe _
  have hkeysperm : List.Perm (groupKeys (mergeNames finals (dedupFirst names)))
      (dedupFirst ((mergeNames finals (dedupFirst names)).map Prod.fst)) :=
    List.perm_insertionSort pandasKeyLe _
  refine ⟨?_, ?_, ?_, ?_⟩
  · have h1 : List.Perm ((resultTable finals names).map Prod.fst)
        (dedupFirst ((mergeNames finals (dedupFirst names)).map Prod.fst)) :=
      (hperm.map Prod.fst).trans (groupSum_map_fst _ ▸ hkeysperm)
    exact h1.nodup_iff.mpr (nodup_dedupFirst _)
  · intro k
    rw [(hperm.map Prod.fst).mem_iff, groupSum_map_fst, hkeysperm.mem_iff]
    exact mem_dedupFirst k _
  · intro k q hmem
    have h2 := hperm.mem_iff.mp hmem
    rcases List.mem_map.mp h2 with ⟨k', _, heq⟩
    cases heq
    rfl
  · exact List.sorted_insertionSort itemLe _

/-- Witness for C8: in the concrete aggregation the row keyed
`("A", "Item A")` carries the summed quantity of its key. -/
theorem c8_aggregator_witness :
    (3 : Rat) = (((mergeNames wFinals (dedupFirst wNames)).filter
      fun e => e.1 == ("A", "Item A")).map fun e => e.2).sum :=
  (c8_aggregator wFinals wNames).2.2.1 ("A", "Item A") 3
    (by with_unfolding_all decide)

/-- All-unknown row lists leave the trace log, length log and leaf
totals untouched (no recursive call can even occur). -/
theorem goRows_unknown_pres
    (recur : String → Rat → Path → EState → Option EState)
    (item : String) :
    ∀ (rows : List Row), (∀ r ∈ rows, classify r = .unknown) →
    ∀ (mult : Rat) (path : Path) (s out : EState),
      goRows recur item mult path rows s = some out →
      out.trace_log = s.trace_log ∧ out.length_log = s.length_log ∧
        out.final_results = s.final_results := by
  intro rows
  induction rows with
  | nil =>
    intro _ mult path s out h
    simp only [goRows, Option.some.injEq] at h
    exact h ▸ ⟨rfl, rfl, rfl⟩
  | cons r rest ih =>
    intro hall mult path s out h
    have hr := hall r (List.mem_cons_self r rest)
    have hrest : ∀ x ∈ rest, classify x = .unknown :=
      fun x hx => hall x (List.mem_cons_of_mem r hx)
    simp only [goRows] at h
    split at h
    · exact ih hrest mult path s out h
    · split at h
      · rename_i heq
        exact absurd (hr.symm.trans heq) (by decide)
      · rename_i heq
        exact absurd (hr.symm.trans heq) (by decide)
      · rename_i heq
        exact absurd (hr.symm.trans heq) (by decide)
      · have hsub := ih hrest mult path
          { s with seen_paths :=
              s.seen_paths ++ [path ++ [(item, r.qtyper)] ++ [(r.item, r.qtyper)]] }
          out h
        exact hsub

/-- `traverseF` on an all-unknown table leaves logs and totals untouched. -/
theorem traverseF_unknown_pres (df : List Row)
    (hall : ∀ r ∈ df, classify r = .unknown) :
    ∀ (fuel : Nat) (item : String) (mult : Rat) (path : Path) (s out : EState),
      traverseF df fuel item mult path s = some out →
      out.trace_log = s.trace_log ∧ out.length_log = s.length_log ∧
        out.final_results = s.final_results := by
  intro fuel
  cases fuel with
  | zero => intro item mult path s out h; simp [traverseF] at h
  | succ n =>
    intro item mult path s out h
    refine goRows_unknown_pres (traverseF df n) item _ ?_ mult path s out h
    intro r hr
    exact hall r (List.mem_filter.mp hr).1

/-- C9: an unknown-classified row contributes nothing: processing it
only marks its path key as seen, appending nothing to the trace log or
length log, adding nothing to the leaf totals, and performing no
recursion into its child; a whole explosion of an all-unknown table
leaves every log and total empty. -/
theorem c9_unknown_no_contribution :
    (∀ (recur : String → Rat → Path → EState → Option EState)
        (item : String) (mult : Rat) (path : Path) (r : Row) (rest : List Row)
        (s : EState),
      classify r = .unknown →
      (path ++ [(item, r.qtyper)] ++ [(r.item, r.qtyper)] : Path) ∉ s.seen_paths →
      goRows recur item mult path (r :: rest) s =
        goRows recur item mult path rest
          { s with seen_paths :=
              s.seen_paths ++ [path ++ [(item, r.qtyper)] ++ [(r.item, r.qtyper)]] }) ∧
    (∀ (df : List Row) (root : String) (fuel : Nat) (s : EState),
      (∀ r ∈ df, classify r = .unknown) →
      explode df root fuel = some s →
      s.trace_log = [] ∧ s.length_log = [] ∧ s.final_results = []) := by
  constructor
  · intro recur item mult path r rest s hc hnot
    simp only [goRows]
    rw [if_neg hnot, hc]
  · intro df root fuel s hall h
    exact traverseF_unknown_pres df hall fuel root 1 [] initState s h

theorem explode_unknownTable : explode unknownTable "R" 3 = some uState := by
  with_unfolding_all decide

/-- Witness for C9: the unknown row `R -> X` only marks its path key,
and the all-unknown table explodes to empty logs and totals. -/
theorem c9_unknown_no_contribution_witness :
    (goRows (fun _ _ _ _ => none) "R" 1 []
        [mkRow "R" "X" 2 "" "Other" "" "Item X" 1] initState =
      goRows (fun _ _ _ _ => none) "R" 1 [] []
        { initState with seen_paths := [[("R", 2), ("X", 2)]] }) ∧
    (uState.trace_log = [] ∧ uState.length_log = [] ∧
      uState.final_results = []) := by
  constructor
  · exact c9_unknown_no_contribution.1 (fun _ _ _ _ => none) "R" 1 []
      (mkRow "R" "X" 2 "" "Other" "" "Item X" 1) [] initState
      (by decide) (by decide)
  · exact c9_unknown_no_contribution.2 unknownTable "R" 3 uState (by decide)
      explode_unknownTable

theorem recordedInv_leafUpdate (df : List Row) (s : EState) (c : String)
    (q : Rat) (key : Path) (b : Bool) (hs : StateInvE df s)
    (hp : RecordedEntry df (c, q, key)) :
    StateInvE df (leafUpdate s c q key b) := by
  have htr : ∀ e ∈ s.trace_log ++ [(c, q, key)], RecordedEntry df e := by
    intro e he
    rcases List.mem_append.mp he with he | he
    · exact hs.1 e he
    · rcases List.mem_singleton.mp he with rfl
      exact hp
  have hlen : ∀ e ∈ s.length_log ++ [(c, q, key)], RecordedEntry df e := by
    intro e he
    rcases List.mem_append.mp he with he | he
    · exact hs.2 e he
    · rcases List.mem_singleton.mp he with rfl
      exact hp
  cases b with
  | true => exact ⟨htr, hlen⟩
  | false => exact ⟨htr, hs.2⟩

/-- The loop body preserves `StateInvE`, given that the current path is
a valid chain to the current item and the rows processed are rows of the
table below the current item. -/
theorem goRows_invE (df : List Row)
    (recur : String → Rat → Path → EState → Option EState)
    (hrec : ∀ ch m p t t', ChainTo df p ch → StateInvE df t →
      recur ch m p t = some t' → StateInvE df t')
    (item : String) :
    ∀ (rows : List Row), (∀ r ∈ rows, r ∈ df ∧ r.parentpart = item) →
    ∀ (mult : Rat) (path : Path) (s out : EState),
      ChainTo df path item → StateInvE df s →
      goRows recur item mult path rows s = some out → StateInvE df out := by
  intro rows
  induction rows with
  | nil =>
    intro _ mult path s out _ hs h
    simp only [goRows, Option.some.injEq] at h
    exact h ▸ hs
  | cons r rest ih =>
    intro hmem mult path s out hch hs h
    have hin := hmem r (List.mem_cons_self r rest)
    have hrest : ∀ x ∈ rest, x ∈ df ∧ x.parentpart = item :=
      fun x hx => hmem x (List.mem_cons_of_mem r hx)
    have hentry : RecordedEntry df (r.item, mult * r.qtyper,
        (path ++ [(item, r.qtyper)] ++ [(r.item, r.qtyper)] : Path)) := by
      refine ⟨path, item, r, hch, hin.1, hin.2, rfl, by simp⟩
    simp only [goRows] at h
    split at h
    · exact ih hrest mult path s out hch hs h
    · split at h
      · refine ih hrest mult path _ out hch ?_ h
        exact recordedInv_leafUpdate df _ _ _ _ _ hs hentry
      · refine ih hrest mult path _ out hch ?_ h
        exact recordedInv_leafUpdate df _ _ _ _ _ hs hentry
      · split at h
        · exact absurd h (by simp)
        · rename_i s' hrecur
          refine ih hrest mult path s' out hch ?_ h
          refine hrec r.item (mult * r.qtyper) (path ++ [(item, r.qtyper)]) _ s'
            (ChainTo.snoc path item r hch hin.1 hin.2) ?_ hrecur
          exact hs
      · refine ih hrest mult path _ out hch ?_ h
        exact hs

/-- `traverseF` preserves `StateInvE`. -/
theorem traverseF_invE (df : List Row) :
    ∀ (fuel : Nat) (item : String) (mult : Rat) (path : Path) (s out : EState),
      ChainTo df path item → StateInvE df s →
      traverseF df fuel item mult path s = some out → StateInvE df out := by
  intro fuel
  induction fuel with
  | zero => intro item mult path s out _ _ h; simp [traverseF] at h
  | succ n ih =>
    intro item mult path s out hch hs h
    refine goRows_invE df (traverseF df n)
      (fun ch m p t t' hch' ht' hr => ih ch m p t t' hch' ht' hr)
      item _ ?_ mult path s out hch hs h
    intro r hr
    have hf := List.mem_filter.mp hr
    exact ⟨hf.1, by simpa using hf.2⟩

/-- C10: every path recorded in the trace log or the length log consists
of pairs each carrying the quantity of the table edge leading from that
pair's item to the next item of the path, with the final pair repeating
the terminal edge's quantity under the leaf item itself — so the last
two pairs of every recorded path hold the same quantity value. -/
theorem c10_recorded_paths :
    ∀ (df : List Row) (root : String) (fuel : Nat) (s : EState),
      explode df root fuel = some s →
      ∀ e ∈ s.trace_log ++ s.length_log,
        RecordedEntry df e ∧
        ∃ (pre : Path) (it ch : String) (q : Rat),
          e.2.2 = pre ++ [(it, q), (ch, q)] := by
  intro df root fuel s h e he
  have hinv : StateInvE df s :=
    traverseF_invE df fuel root 1 [] initState s (ChainTo.nil root)
      ⟨fun e he => absurd he (by simp [initState]),
       fun e he => absurd he (by simp [initState])⟩ h
  have hre : RecordedEntry df e := by
    rcases List.mem_append.mp he with he | he
    · exact hinv.1 e he
    · exact hinv.2 e he
  refine ⟨hre, ?_⟩
  rcases hre with ⟨p, it, r, _, _, _, _, hpath⟩
  exact ⟨p, it, r.item, r.qtyper, hpath⟩

/-- Witness for C10: the recorded path of the chain example decomposes
with its last two pairs holding the same quantity `5`. -/
theorem c10_recorded_paths_witness :
    ∃ (pre : Path) (it ch : String) (q : Rat),
      ([("R", 2), ("A", 3), ("B", 5), ("C", 5)] : Path) =
        pre ++ [(it, q), (ch, q)] :=
  (c10_recorded_paths chainTable "R" 10 chainState explode_chainTable
    ("C", 30, [("R", 2), ("A", 3), ("B", 5), ("C", 5)]) (by decide)).2

end BomVergelijker
